import Mathlib

/-!
Verification of the lumibot backtesting broker
(src/lumibot/backtesting/backtesting_broker.py) against its
natural-language specification.

Shallow embedding conventions:
- Python floats and Decimals carrying prices, quantities and cash are
  modelled as rationals (ℚ); Decimal addition/multiplication is exact so
  the embedding is faithful, and the `float(...)` conversion at the cash
  debit is modelled as exact.
- Datetimes are modelled as integers (seconds on a linear timeline);
  timedelta arithmetic becomes integer addition.
- Python `None` becomes `Option.none`; attribute access on `None` and
  out-of-range indexing, which raise in Python, are modelled with
  `Except` where a claim depends on them.
- Order `side` is the inductive `Side` (the data model restricts it to
  buy/sell), order `type` the inductive `OType`, `status` the inductive
  `OStatus`.
-/

inductive Side where
  | buy
  | sell
deriving DecidableEq, Repr

inductive OType where
  | market
  | limit
  | stop
  | stop_limit
  | trailing_stop
deriving DecidableEq, Repr

inductive OStatus where
  | unprocessed
  | new
  | filled
  | canceled
deriving DecidableEq, Repr

/-- Embedding of BacktestingBroker.limit_order (backtesting_broker.py
lines 618-633): gap fill at the open, else fill at the limit price when
the bar range reaches it, else no fill. -/
def limit_order (limit_price : ℚ) (side : Side) (open_ high low : ℚ) : Option ℚ :=
  if side = Side.sell ∧ limit_price ≤ open_ then some open_
  else if side = Side.buy ∧ limit_price ≥ open_ then some open_
  else if low ≤ limit_price ∧ limit_price ≤ high then some limit_price
  else none

/-- Embedding of BacktestingBroker.stop_order (backtesting_broker.py
lines 635-650): gap fill at the open, else fill at the stop price when
the bar range reaches it, else no fill. -/
def stop_order (stop_price : ℚ) (side : Side) (open_ high low : ℚ) : Option ℚ :=
  if side = Side.sell ∧ stop_price ≥ open_ then some open_
  else if side = Side.buy ∧ stop_price ≤ open_ then some open_
  else if low ≤ stop_price ∧ stop_price ≤ high then some stop_price
  else none

/-- C1: a sell stop with stop price S fills at O when S ≥ O, otherwise at
S when L ≤ S ≤ H, otherwise not at all; a buy stop fills at O when S ≤ O,
otherwise at S when L ≤ S ≤ H, otherwise not at all; and when S = O the
gap branch wins, giving fill price O. -/
theorem stop_order_fill_rule (S O H L : ℚ) :
    (stop_order S Side.sell O H L =
      (if S ≥ O then some O else if L ≤ S ∧ S ≤ H then some S else none)) ∧
    (stop_order S Side.buy O H L =
      (if S ≤ O then some O else if L ≤ S ∧ S ≤ H then some S else none)) ∧
    (S = O → stop_order S Side.sell O H L = some O ∧
      stop_order S Side.buy O H L = some O) := by
  refine ⟨?_, ?_, ?_⟩
  · simp only [stop_order]
    by_cases hso : S ≥ O <;> simp [hso]
  · simp only [stop_order]
    by_cases hso : S ≤ O <;> simp [hso]
  · intro hSO
    subst hSO
    simp [stop_order]

/-- Witness for C1 at a concrete input. -/
theorem stop_order_fill_rule_witness :
    stop_order 100 Side.sell 100 101 99 = some 100 ∧
    stop_order 100 Side.buy 100 101 99 = some 100 :=
  (stop_order_fill_rule 100 100 101 99).2.2 rfl

/-- C2: a sell limit with limit price P fills at O when P ≤ O, otherwise
at P when L ≤ P ≤ H, otherwise not at all; a buy limit fills at O when
P ≥ O, otherwise at P when L ≤ P ≤ H, otherwise not at all; and on a
well-formed bar (L ≤ O ≤ H) a buy limit equal to L, and a sell limit
equal to H, fills exactly at the limit price. -/
theorem limit_order_fill_rule (P O H L : ℚ) :
    (limit_order P Side.sell O H L =
      (if P ≤ O then some O else if L ≤ P ∧ P ≤ H then some P else none)) ∧
    (limit_order P Side.buy O H L =
      (if P ≥ O then some O else if L ≤ P ∧ P ≤ H then some P else none)) ∧
    (L ≤ O → O ≤ H →
      limit_order L Side.buy O H L = some L ∧
      limit_order H Side.sell O H L = some H) := by
  refine ⟨?_, ?_, ?_⟩
  · simp only [limit_order]
    by_cases hpo : P ≤ O <;> simp [hpo]
  · simp only [limit_order]
    by_cases hpo : P ≥ O <;> simp [hpo]
  · intro hLO hOH
    constructor
    · simp only [limit_order]
      by_cases hgap : L ≥ O
      · have hOL : O = L := le_antisymm (le_of_not_lt (fun hc => absurd hgap (not_le.mpr hc))) hLO
        simp [hgap, hOL]
      · have hLH : L ≤ H := le_trans hLO hOH
        simp [hgap, hLH]
    · simp only [limit_order]
      by_cases hgap : H ≤ O
      · have hOH' : O = H := le_antisymm hOH hgap
        simp [hgap, hOH']
      · have hLH : L ≤ H := le_trans hLO hOH
        simp [hgap, hLH]

/-- Witness for C2 at a concrete input. -/
theorem limit_order_fill_rule_witness :
    limit_order 99 Side.buy 100 101 99 = some 99 ∧
    limit_order 101 Side.sell 100 101 99 = some 101 :=
  (limit_order_fill_rule 99 100 101 99).2.2 (by norm_num) (by norm_num)

/-- Embedding of the stop_limit branch of process_pending_orders
(backtesting_broker.py lines 562-569). Input: the order's stop and limit
prices, its side, its price_triggered latch, and the bar. Output: the
fill price (if any) and the new value of price_triggered. When the latch
is not yet set, the stop rule runs first; on a non-null trigger price the
limit rule is re-run with that trigger price in place of the open and the
latch is set. When the latch is already set, the plain limit rule runs. -/
def stop_limit_step (stop_price limit_price : ℚ) (side : Side)
    (price_triggered : Bool) (open_ high low : ℚ) : Option ℚ × Bool :=
  if price_triggered = false then
    match stop_order stop_price side open_ high low with
    | some trigger_price =>
        (limit_order limit_price side trigger_price high low, true)
    | none => (none, false)
  else
    (limit_order limit_price side open_ high low, true)

/-- C3: with price_triggered = false the stop rule is evaluated first; a
non-null trigger price t sets price_triggered and re-evaluates the limit
rule with t substituted for the open within the same bar, the order
filling at that limit result when it is non-null and otherwise staying
pending with price_triggered = true; a null trigger leaves the order
pending with price_triggered still false; with price_triggered = true the
normal limit rule against the bar's open applies. -/
theorem stop_limit_two_phase (S P : ℚ) (side : Side) (O H L : ℚ) :
    (∀ t, stop_order S side O H L = some t →
      stop_limit_step S P side false O H L = (limit_order P side t H L, true)) ∧
    (stop_order S side O H L = none →
      stop_limit_step S P side false O H L = (none, false)) ∧
    (stop_limit_step S P side true O H L = (limit_order P side O H L, true)) := by
  refine ⟨?_, ?_, ?_⟩
  · intro t ht
    simp [stop_limit_step, ht]
  · intro ht
    simp [stop_limit_step, ht]
  · simp [stop_limit_step]

/-- Witness for C3: bar O=100 H=101 L=99, sell stop 100 triggers at the
open, the limit at 102 is unreachable from the trigger price, so the
order stays pending with the latch set. -/
theorem stop_limit_two_phase_witness :
    stop_limit_step 100 102 Side.sell false 100 101 99 = (none, true) := by
  have h := (stop_limit_two_phase 100 102 Side.sell 100 101 99).1 100 (by decide)
  rw [h]
  decide

/-- Modelled from the spec: Order.update_trail_stop_price lives in the
Order entity, which is not under src/. Spec 4.3.1 prescribes, for the
absolute-offset trail, sell: _trail_stop_price = max(old, x - trail) and
buy: _trail_stop_price = min(old, x + trail); spec 8 prescribes that an
unset _trail_stop_price is initialized from the first evaluated bar, so
the unset case takes x - trail (sell) respectively x + trail (buy). -/
def update_trail_stop_price (side : Side) (trail : ℚ) (tsp : Option ℚ)
    (x : ℚ) : Option ℚ :=
  match side, tsp with
  | Side.sell, none => some (x - trail)
  | Side.sell, some t => some (max t (x - trail))
  | Side.buy, none => some (x + trail)
  | Side.buy, some t => some (min t (x + trail))

/-- Embedding of the trailing_stop branch of process_pending_orders
(backtesting_broker.py lines 571-580). The fill check runs first, against
the current _trail_stop_price and only when that price is truthy (Python
`if order._trail_stop_price:` skips both None and 0); afterwards the
trail is updated from the bar's high (sell) or low (buy). Output: fill
price (if any) and the new _trail_stop_price. -/
def trailing_stop_step (trail : ℚ) (side : Side) (tsp : Option ℚ)
    (open_ high low : ℚ) : Option ℚ × Option ℚ :=
  let price : Option ℚ :=
    match tsp with
    | some t => if t = 0 then none else stop_order t side open_ high low
    | none => none
  let tsp' : Option ℚ :=
    match side with
    | Side.sell => update_trail_stop_price side trail tsp high
    | Side.buy => update_trail_stop_price side trail tsp low
  (price, tsp')

/-- C4: on each bar the fill check against _trail_stop_price runs before
the trail update, so the fill price is computed from the pre-update trail
price; and on the first bar of an order whose _trail_stop_price is unset
there is no fill and _trail_stop_price is initialized from that bar (high
minus trail for sells, low plus trail for buys). -/
theorem trailing_stop_fill_first_then_update (trail : ℚ) (O H L : ℚ) :
    (∀ side t, t ≠ 0 →
      (trailing_stop_step trail side (some t) O H L).1 =
        stop_order t side O H L) ∧
    (∀ t, (trailing_stop_step trail Side.sell (some t) O H L).2 =
        some (max t (H - trail)) ∧
      (trailing_stop_step trail Side.buy (some t) O H L).2 =
        some (min t (L + trail))) ∧
    (trailing_stop_step trail Side.sell none O H L =
      (none, some (H - trail))) ∧
    (trailing_stop_step trail Side.buy none O H L =
      (none, some (L + trail))) := by
  refine ⟨?_, ?_, ?_, ?_⟩
  · intro side t ht
    simp [trailing_stop_step, ht]
  · intro t
    constructor
    · simp [trailing_stop_step, update_trail_stop_price]
    · simp [trailing_stop_step, update_trail_stop_price]
  · simp [trailing_stop_step, update_trail_stop_price]
  · simp [trailing_stop_step, update_trail_stop_price]

/-- Witness for C4: with trail 2 on a sell order, bar O=100 H=101 L=99
and trail price 100, the fill uses the old trail price 100 even though
the update moves it afterwards. -/
theorem trailing_stop_fill_first_then_update_witness :
    (trailing_stop_step 2 Side.sell (some 100) 100 101 99).1 =
      stop_order 100 Side.sell 100 101 99 :=
  (trailing_stop_fill_first_then_update 2 100 101 99).1 Side.sell 100 (by decide)

/-- Embedding of the TradingFee entity as consumed by
calculate_trade_cost: a flat fee, a percent fee, and the taker/maker
flags. -/
structure TradingFee where
  flat_fee : ℚ
  percent_fee : ℚ
  taker : Bool
  maker : Bool
deriving DecidableEq, Repr

/-- Embedding of BacktestingBroker.calculate_trade_cost
(backtesting_broker.py lines 438-461). The side selects the strategy's
buy or sell fee list; each taker fee applies to market/stop orders and
each maker fee to limit/stop_limit orders, contributing
flat_fee + price * quantity * percent_fee. -/
def calculate_trade_cost (side : Side) (otype : OType) (quantity : ℚ)
    (buy_trading_fees sell_trading_fees : List TradingFee) (price : ℚ) : ℚ :=
  let trading_fees : List TradingFee :=
    match side with
    | Side.buy => buy_trading_fees
    | Side.sell => sell_trading_fees
  trading_fees.foldl (fun trade_cost trading_fee =>
    if trading_fee.taker = true ∧ (otype = OType.market ∨ otype = OType.stop) then
      trade_cost + trading_fee.flat_fee + price * quantity * trading_fee.percent_fee
    else if trading_fee.maker = true ∧
        (otype = OType.limit ∨ otype = OType.stop_limit) then
      trade_cost + trading_fee.flat_fee + price * quantity * trading_fee.percent_fee
    else trade_cost) 0

/-- Embedding of the cash debit at the moment of fill
(backtesting_broker.py lines 603-606): new cash = cash - trade_cost, the
float conversion being modelled as exact. -/
def fill_cash_update (cash trade_cost : ℚ) : ℚ :=
  cash - trade_cost

/-- Whether a fee applies to an order of the given type: taker fees match
market/stop, maker fees match limit/stop_limit. -/
def fee_applies (otype : OType) (f : TradingFee) : Bool :=
  (f.taker && (otype = OType.market ∨ otype = OType.stop : Bool)) ||
  (f.maker && (otype = OType.limit ∨ otype = OType.stop_limit : Bool))

/-- The per-fee charge of the trade-cost model. -/
def fee_charge (price quantity : ℚ) (f : TradingFee) : ℚ :=
  f.flat_fee + price * quantity * f.percent_fee

theorem calculate_trade_cost_foldl (otype : OType) (q p : ℚ)
    (fees : List TradingFee) (acc : ℚ) :
    fees.foldl (fun trade_cost trading_fee =>
      if trading_fee.taker = true ∧ (otype = OType.market ∨ otype = OType.stop) then
        trade_cost + trading_fee.flat_fee + p * q * trading_fee.percent_fee
      else if trading_fee.maker = true ∧
          (otype = OType.limit ∨ otype = OType.stop_limit) then
        trade_cost + trading_fee.flat_fee + p * q * trading_fee.percent_fee
      else trade_cost) acc =
    acc + ((fees.filter (fee_applies otype)).map (fee_charge p q)).sum := by
  induction fees generalizing acc with
  | nil => simp
  | cons f fs ih =>
    by_cases hf : fee_applies otype f = true
    · have hfil : List.filter (fee_applies otype) (f :: fs) =
          f :: List.filter (fee_applies otype) fs :=
        List.filter_cons_of_pos hf
      have hsplit : (f.taker = true ∧ (otype = OType.market ∨ otype = OType.stop)) ∨
          (f.maker = true ∧ (otype = OType.limit ∨ otype = OType.stop_limit)) := by
        simpa [fee_applies, Bool.or_eq_true, Bool.and_eq_true,
          decide_eq_true_eq] using hf
      rcases hsplit with h1 | h1
      · rw [List.foldl_cons, if_pos h1, ih, hfil, List.map_cons, List.sum_cons]
        simp only [fee_charge]
        ring
      · by_cases h2 : f.taker = true ∧ (otype = OType.market ∨ otype = OType.stop)
        · rw [List.foldl_cons, if_pos h2, ih, hfil, List.map_cons, List.sum_cons]
          simp only [fee_charge]
          ring
        · rw [List.foldl_cons, if_neg h2, if_pos h1, ih, hfil, List.map_cons,
            List.sum_cons]
          simp only [fee_charge]
          ring
    · have hfil : List.filter (fee_applies otype) (f :: fs) =
          List.filter (fee_applies otype) fs :=
        List.filter_cons_of_neg hf
      have h1 : ¬(f.taker = true ∧ (otype = OType.market ∨ otype = OType.stop)) := by
        intro hc
        apply hf
        simp only [fee_applies, Bool.or_eq_true, Bool.and_eq_true, decide_eq_true_eq]
        left
        exact hc
      have h2 : ¬(f.maker = true ∧ (otype = OType.limit ∨ otype = OType.stop_limit)) := by
        intro hc
        apply hf
        simp only [fee_applies, Bool.or_eq_true, Bool.and_eq_true, decide_eq_true_eq]
        right
        exact hc
      rw [List.foldl_cons, if_neg h1, if_neg h2, ih, hfil]

/-- C6: the trade cost of a fill at price p and quantity q is the sum,
over the side-matched fee list, of flat_fee + p * q * percent_fee for
each taker fee when the type is market or stop and each maker fee when
the type is limit or stop_limit; and strategy cash is debited by exactly
that sum at the moment of fill. -/
theorem calculate_trade_cost_fee_model (side : Side) (otype : OType)
    (q : ℚ) (buyFees sellFees : List TradingFee) (p cash : ℚ) :
    calculate_trade_cost side otype q buyFees sellFees p =
      (((match side with
          | Side.buy => buyFees
          | Side.sell => sellFees).filter (fee_applies otype)).map
        (fee_charge p q)).sum ∧
    fill_cash_update cash (calculate_trade_cost side otype q buyFees sellFees p) =
      cash - (((match side with
          | Side.buy => buyFees
          | Side.sell => sellFees).filter (fee_applies otype)).map
        (fee_charge p q)).sum := by
  have hmain : calculate_trade_cost side otype q buyFees sellFees p =
      (((match side with
          | Side.buy => buyFees
          | Side.sell => sellFees).filter (fee_applies otype)).map
        (fee_charge p q)).sum := by
    cases side
    · simpa [calculate_trade_cost] using
        calculate_trade_cost_foldl otype q p buyFees 0
    · simpa [calculate_trade_cost] using
        calculate_trade_cost_foldl otype q p sellFees 0
  exact ⟨hmain, by rw [fill_cash_update, hmain]⟩

/-- C10: a fill of a trailing_stop order incurs zero trade cost whatever
the configured fee lists, because trailing_stop matches neither the taker
set nor the maker set, so the fill debits nothing from strategy cash. -/
theorem trailing_stop_trade_cost_zero (side : Side) (q : ℚ)
    (buyFees sellFees : List TradingFee) (p cash : ℚ) :
    calculate_trade_cost side OType.trailing_stop q buyFees sellFees p = 0 ∧
    fill_cash_update cash
      (calculate_trade_cost side OType.trailing_stop q buyFees sellFees p) = cash := by
  have happ : ∀ f : TradingFee, fee_applies OType.trailing_stop f = false := by
    intro f
    simp [fee_applies]
  have hnil : ∀ l : List TradingFee,
      List.filter (fee_applies OType.trailing_stop) l = [] := by
    intro l
    refine List.filter_eq_nil_iff.mpr ?_
    intro f _
    simp [happ f]
  have hcost : calculate_trade_cost side OType.trailing_stop q buyFees sellFees p = 0 := by
    cases side
    · have h := calculate_trade_cost_foldl OType.trailing_stop q p buyFees 0
      rw [hnil buyFees] at h
      simp only [List.map_nil, List.sum_nil, add_zero] at h
      rw [calculate_trade_cost]
      exact h
    · have h := calculate_trade_cost_foldl OType.trailing_stop q p sellFees 0
      rw [hnil sellFees] at h
      simp only [List.map_nil, List.sum_nil, add_zero] at h
      rw [calculate_trade_cost]
      exact h
  refine ⟨hcost, ?_⟩
  rw [fill_cash_update, hcost, sub_zero]


inductive ORight where
  | call
  | put
deriving DecidableEq, Repr

/-- Result of cash-settling an option position: the strategy's new cash
and the payload of the CASH_SETTLED event (side of the synthetic
offsetting order, event price, filled quantity). -/
structure SettleResult where
  new_cash : ℚ
  side : Side
  price : ℚ
  filled_quantity : ℚ
deriving DecidableEq, Repr

/-- The per-contract profit/loss of cash_settle_options_contract
(backtesting_broker.py lines 366-369): U - strike for a CALL, strike - U
otherwise (PUT per the data model). -/
def per_contract_value (right : ORight) (strike U : ℚ) : ℚ :=
  match right with
  | ORight.call => U - strike
  | ORight.put => strike - U

/-- Embedding of BacktestingBroker.cash_settle_options_contract
(backtesting_broker.py lines 340-401) for an option position with the
given right, strike, multiplier and signed quantity, at underlying last
price U and current strategy cash. The division in the event price is
exact rational division (the quantity = 0 case, which raises
ZeroDivisionError in Python, is excluded by the hypotheses of the
theorems below). -/
def cash_settle_options_contract (right : ORight) (strike multiplier : ℚ)
    (quantity : ℚ) (U cash : ℚ) : SettleResult :=
  let profit_loss0 : ℚ := per_contract_value right strike U * quantity * multiplier
  let profit_loss : ℚ :=
    if quantity > 0 ∧ profit_loss0 < 0 then 0
    else if quantity < 0 ∧ profit_loss0 > 0 then 0
    else profit_loss0
  { new_cash := cash + profit_loss
    side := if quantity > 0 then Side.sell else Side.buy
    price := |profit_loss / quantity / multiplier|
    filled_quantity := |quantity| }

/-- C7: cash settlement pays the clipped intrinsic value: with raw pnl =
per_contract_value * quantity * multiplier (per-contract value U - strike
for a call, strike - U for a put), a long position adds max(pnl, 0) to
cash and a short position adds min(pnl, 0), so a long never settles below
0 and a short never above 0; the published event carries the clipped
price = |pnl / quantity / multiplier|, filled_quantity = |quantity|, and
the synthetic offsetting order is a sell for a long position and a buy
for a short one. -/
theorem cash_settle_clipped_intrinsic (right : ORight) (strike multiplier
    quantity U cash : ℚ) :
    (quantity > 0 →
      cash_settle_options_contract right strike multiplier quantity U cash =
        { new_cash := cash +
            max (per_contract_value right strike U * quantity * multiplier) 0
          side := Side.sell
          price := |max (per_contract_value right strike U * quantity *
            multiplier) 0 / quantity / multiplier|
          filled_quantity := |quantity| }) ∧
    (quantity < 0 →
      cash_settle_options_contract right strike multiplier quantity U cash =
        { new_cash := cash +
            min (per_contract_value right strike U * quantity * multiplier) 0
          side := Side.buy
          price := |min (per_contract_value right strike U * quantity *
            multiplier) 0 / quantity / multiplier|
          filled_quantity := |quantity| }) := by
  constructor
  · intro hq
    have hq' : ¬ quantity < 0 := not_lt.mpr hq.le
    simp only [cash_settle_options_contract]
    by_cases hneg : per_contract_value right strike U * quantity * multiplier < 0
    · simp [hq, hq', hneg, max_eq_right hneg.le]
    · simp [hq, hq', hneg, max_eq_left (not_lt.mp hneg)]
  · intro hq
    have hq' : ¬ quantity > 0 := not_lt.mpr hq.le
    simp only [cash_settle_options_contract]
    by_cases hpos : per_contract_value right strike U * quantity * multiplier > 0
    · simp [hq, hq', hpos, min_eq_right hpos.le]
    · simp [hq, hq', hpos, min_eq_left (not_lt.mp hpos)]

/-- Witness for C7: the spec scenario 6 on both sides of zero: long 1
CALL, strike 100, multiplier 100, U = 107 settles cash from 1000 to 1700
with event price 7 and a synthetic sell of 1 contract. -/
theorem cash_settle_clipped_intrinsic_witness :
    cash_settle_options_contract ORight.call 100 100 1 107 1000 =
      { new_cash := 1700
        side := Side.sell
        price := 7
        filled_quantity := 1 } := by
  have h := (cash_settle_clipped_intrinsic ORight.call 100 100 1 107 1000).1
    (by norm_num)
  rw [h]
  norm_num [per_contract_value]

/-- One row of the broker's _trading_days table: a session's open and
close instants (seconds on the model timeline). -/
structure TradingDay where
  market_open : ℤ
  market_close : ℤ
deriving DecidableEq, Repr

/-- Embedding of BacktestingBroker.get_time_to_open (backtesting_broker.py
lines 122-145): pick the first trading day whose close is after now
(empty search returns 0); take its open; the backtesting branch rewrites
the open to datetime_start when now is already past the open; return 0
when now is at or past the (possibly rewritten) open, else the remaining
seconds. -/
def get_time_to_open (trading_days : List TradingDay) (datetime_start now : ℤ) : ℤ :=
  match trading_days.find? (fun d => decide (now < d.market_close)) with
  | none => 0
  | some trading_day =>
    let open_time := trading_day.market_open
    let open_time := if now > open_time then datetime_start else open_time
    if now ≥ open_time then 0 else open_time - now

/-- Embedding of BacktestingBroker.get_time_to_close (backtesting_broker.py
lines 148-165): pick the first trading day whose close is at or after
now (empty search returns 0, modelled as some 0); return None when now
precedes that day's open, else the seconds remaining to its close. -/
def get_time_to_close (trading_days : List TradingDay) (now : ℤ) : Option ℤ :=
  match trading_days.find? (fun d => decide (now ≤ d.market_close)) with
  | none => some 0
  | some trading_day =>
    if now < trading_day.market_open then none
    else some (trading_day.market_close - now)

/-- The None-to-0 coercion of _await_market_to_close
(backtesting_broker.py lines 188-193). -/
def time_to_close_effective (trading_days : List TradingDay) (now : ℤ) : ℤ :=
  match get_time_to_close trading_days now with
  | none => 0
  | some t => t

/-- The argument of BacktestingBroker._update_datetime: an absolute
timestamp, or a timedelta / number of seconds (both of which the source
adds to the current datetime). -/
inductive DTUpdate where
  | absolute (t : ℤ)
  | delta (seconds : ℤ)
deriving DecidableEq, Repr

/-- Embedding of BacktestingBroker._update_datetime (backtesting_broker.py
lines 81-93) composed with the data source clock write. Modelled from the
spec: DataSourceBacktesting._update_datetime itself is not under src/;
per spec 3 and 5 the clock is a plain datum owned by the data source, so
the write stores the computed new_datetime. -/
def update_datetime (now : ℤ) : DTUpdate → ℤ
  | DTUpdate.absolute t => t
  | DTUpdate.delta s => now + s

/-- Embedding of BacktestingBroker._await_market_to_open
(backtesting_broker.py lines 167-178), on the path where the data source
is not a day-timestep PANDAS source (the early return there leaves the
clock untouched). process_pending_orders does not move the clock; the
offset is subtracted only when truthy (Python `if timedelta:`), and the
possibly negative remainder is applied as a seconds delta. Returns the
new clock value. -/
def await_market_to_open (trading_days : List TradingDay)
    (datetime_start : ℤ) (offset_minutes : Option ℤ) (now : ℤ) : ℤ :=
  let time_to_open := get_time_to_open trading_days datetime_start now
  let time_to_open :=
    match offset_minutes with
    | some m => if m = 0 then time_to_open else time_to_open - 60 * m
    | none => time_to_open
  update_datetime now (DTUpdate.delta time_to_open)

/-- Embedding of BacktestingBroker._await_market_to_close
(backtesting_broker.py lines 180-197) on the non-day-timestep path: a
None time-to-close becomes 0; the offset is subtracted whenever it is
not None (`if timedelta is not None:`), and the possibly negative
remainder is applied as a seconds delta. -/
def await_market_to_close (trading_days : List TradingDay)
    (offset_minutes : Option ℤ) (now : ℤ) : ℤ :=
  let time_to_close := time_to_close_effective trading_days now
  let time_to_close :=
    match offset_minutes with
    | some m => time_to_close - 60 * m
    | none => time_to_close
  update_datetime now (DTUpdate.delta time_to_close)

theorem get_time_to_open_nonneg (trading_days : List TradingDay)
    (datetime_start now : ℤ) :
    0 ≤ get_time_to_open trading_days datetime_start now := by
  rw [get_time_to_open]
  rcases hfind : trading_days.find? (fun d => decide (now < d.market_close)) with _ | d
  · simp [hfind]
  · simp only [hfind]
    split_ifs <;> omega

theorem time_to_close_effective_nonneg (trading_days : List TradingDay)
    (now : ℤ) :
    0 ≤ time_to_close_effective trading_days now := by
  rw [time_to_close_effective, get_time_to_close]
  rcases hfind : trading_days.find? (fun d => decide (now ≤ d.market_close)) with _ | d
  · simp [hfind]
  · have hd : now ≤ d.market_close := by
      have h := List.find?_some hfind
      simpa using h
    simp only [hfind]
    split_ifs with hlt
    · simp
    · simp only
      omega

/-- Counterexample to C8: a session (open 100, close 200), simulation
start 0, clock at 150 inside the session. get_time_to_open returns 0 (the
backtesting branch rewrites the open to datetime_start), so
_await_market_to_open with offset_minutes = 1 applies a delta of -60
seconds and the clock moves backwards from 150 to 90. -/
theorem await_market_to_open_moves_clock_backwards :
    await_market_to_open [{ market_open := 100, market_close := 200 }]
      0 (some 1) 150 = 90 ∧ (90 : ℤ) < 150 := by
  constructor
  · rfl
  · decide

/-- C8 amended: the virtual clock never moves backwards on any
_update_datetime call whose argument is a nonnegative timedelta/seconds
delta or an absolute timestamp at or after the current clock, and on any
_await_market_to_open or _await_market_to_close call whose offset is
absent or satisfies 60 * offset_minutes <= the computed time to
open/close; without that bound on the offset the clock can move
backwards (see the counterexample). -/
theorem update_datetime_monotone_cases (trading_days : List TradingDay)
    (datetime_start now : ℤ) :
    (∀ s : ℤ, 0 ≤ s → now ≤ update_datetime now (DTUpdate.delta s)) ∧
    (∀ t : ℤ, now ≤ t → now ≤ update_datetime now (DTUpdate.absolute t)) ∧
    (now ≤ await_market_to_open trading_days datetime_start none now) ∧
    (∀ m : ℤ, 60 * m ≤ get_time_to_open trading_days datetime_start now →
      now ≤ await_market_to_open trading_days datetime_start (some m) now) ∧
    (now ≤ await_market_to_close trading_days none now) ∧
    (∀ m : ℤ, 60 * m ≤ time_to_close_effective trading_days now →
      now ≤ await_market_to_close trading_days (some m) now) := by
  have h_tto := get_time_to_open_nonneg trading_days datetime_start now
  have h_ttc := time_to_close_effective_nonneg trading_days now
  refine ⟨?_, ?_, ?_, ?_, ?_, ?_⟩
  · intro s hs
    simp only [update_datetime]
    omega
  · intro t ht
    simpa [update_datetime] using ht
  · simp only [await_market_to_open, update_datetime]
    omega
  · intro m hm
    simp only [await_market_to_open, update_datetime]
    by_cases hm0 : m = 0
    · simp only [hm0, if_true]
      omega
    · simp only [hm0, if_false]
      omega
  · simp only [await_market_to_close, update_datetime]
    omega
  · intro m hm
    simp only [await_market_to_close, update_datetime]
    omega

/-- Witness for the amended C8: with the session of the counterexample
and offset 1, a clock at 30 (still 70 seconds before the open) moves
forward, landing at open minus 60 seconds. -/
theorem update_datetime_monotone_cases_witness :
    (30 : ℤ) ≤ await_market_to_open
      [{ market_open := 100, market_close := 200 }] 0 (some 1) 30 :=
  (update_datetime_monotone_cases
    [{ market_open := 100, market_close := 200 }] 0 30).2.2.2.1 1 (by decide)

/-- One OHLCV row of a Bars dataframe, indexed by its datetime. -/
structure BarRow where
  dt : ℤ
  open_ : ℚ
  high : ℚ
  low : ℚ
  close : ℚ
  volume : ℚ
deriving DecidableEq, Repr

/-- The dataframe held by a Bars result, rows in ascending index order. -/
structure BarsDF where
  rows : List BarRow
deriving DecidableEq, Repr

/-- Python exceptions that the bar-fetch code can raise: AttributeError
from attribute access on None, IndexError from indexing an empty frame. -/
inductive FetchErr where
  | attribute_error
  | index_error
deriving DecidableEq, Repr

/-- Outcome of the per-order bar fetch inside process_pending_orders:
either the order was canceled on this tick, or a bar was produced for the
fill rules. -/
inductive FetchOutcome where
  | order_canceled
  | bar (r : BarRow)
deriving DecidableEq, Repr

/-- Embedding of the PANDAS bar-fetch path of process_pending_orders
(backtesting_broker.py lines 519-547), with Python exception semantics
made explicit. `df_original = ohlc.df` runs before the
`if ohlc is None: cancel_order(order)` guard, so a None result raises
AttributeError there and the guard is unreachable: inside the some branch
the guard's condition is always false, and in the none branch control
never reaches it. The filter keeps rows with index at or after
current_datetime; when it is empty the last original row is used; reading
row 0 of an empty frame raises IndexError. -/
def pandas_fetch_bar (ohlc : Option BarsDF) (current_dt : ℤ) :
    Except FetchErr FetchOutcome :=
  match ohlc with
  | none => Except.error FetchErr.attribute_error
  | some bars =>
    let df_original := bars.rows
    let df := df_original.filter (fun r => decide (current_dt ≤ r.dt))
    let df :=
      if df.isEmpty then
        match df_original.getLast? with
        | some r => [r]
        | none => []
      else df
    match df with
    | [] => Except.error FetchErr.index_error
    | r :: _ => Except.ok (FetchOutcome.bar r)

/-- Embedding of the CCXT/YAHOO bar-fetch path of process_pending_orders
(backtesting_broker.py lines 500-517): the last row of the returned frame
is read unconditionally; there is no None guard and no cancel branch at
all, so a None result raises AttributeError at `ohlc.df.index[-1]` and an
empty frame raises IndexError. -/
def ccxt_yahoo_fetch_bar (ohlc : Option BarsDF) : Except FetchErr FetchOutcome :=
  match ohlc with
  | none => Except.error FetchErr.attribute_error
  | some bars =>
    match bars.rows.getLast? with
    | none => Except.error FetchErr.index_error
    | some r => Except.ok (FetchOutcome.bar r)

/-- C9 evaluated at the failing input: when the data source returns no
bar (a None result, or a result with an empty frame), neither the PANDAS
path nor the CCXT/YAHOO path cancels the order — both raise instead, the
PANDAS path because `ohlc.df` is read before the None guard and the
CCXT/YAHOO path because it has no guard at all. -/
theorem no_bar_raises_instead_of_canceling :
    pandas_fetch_bar none 0 = Except.error FetchErr.attribute_error ∧
    ccxt_yahoo_fetch_bar none = Except.error FetchErr.attribute_error ∧
    pandas_fetch_bar (some { rows := [] }) 0 =
      Except.error FetchErr.index_error ∧
    ccxt_yahoo_fetch_bar (some { rows := [] }) =
      Except.error FetchErr.index_error ∧
    pandas_fetch_bar none 0 ≠ Except.ok FetchOutcome.order_canceled ∧
    ccxt_yahoo_fetch_bar none ≠ Except.ok FetchOutcome.order_canceled := by
  refine ⟨rfl, rfl, rfl, rfl, ?_, ?_⟩
  · intro h
    exact Except.noConfusion h
  · intro h
    exact Except.noConfusion h

/-- A primitive tracked order as evaluated by process_pending_orders,
with the shared header fields and the per-type price state the loop
reads and writes. Following spec 9, the dependent_order sibling link is
a stable order id resolved through the tracked collection. -/
structure POrder where
  id : Nat
  status : OStatus
  otype : OType
  side : Side
  limit_price : ℚ
  stop_price : ℚ
  trail : ℚ
  price_triggered : Bool
  _trail_stop_price : Option ℚ
  dependent_order : Option Nat
  dependent_order_filled : Bool
deriving DecidableEq, Repr

/-- Resolve an order id in the tracked collection. -/
def findOrder (s : List POrder) (i : Nat) : Option POrder :=
  s.find? (fun o => decide (o.id = i))

/-- Mutate the tracked order with the given id in place. -/
def updAll (s : List POrder) (i : Nat) (f : POrder → POrder) : List POrder :=
  s.map (fun o => if o.id = i then f o else o)

/-- The price-determination dispatch of process_pending_orders
(backtesting_broker.py lines 553-580) for one order on one bar: the
resulting fill price together with the new price_triggered latch and the
new _trail_stop_price (identity for the types that do not touch them). -/
def evalOrderPrice (o : POrder) (bar : BarRow) : Option ℚ × Bool × Option ℚ :=
  match o.otype with
  | OType.market => (some bar.open_, o.price_triggered, o._trail_stop_price)
  | OType.limit =>
      (limit_order o.limit_price o.side bar.open_ bar.high bar.low,
        o.price_triggered, o._trail_stop_price)
  | OType.stop =>
      (stop_order o.stop_price o.side bar.open_ bar.high bar.low,
        o.price_triggered, o._trail_stop_price)
  | OType.stop_limit =>
      let r := stop_limit_step o.stop_price o.limit_price o.side
        o.price_triggered bar.open_ bar.high bar.low
      (r.1, r.2, o._trail_stop_price)
  | OType.trailing_stop =>
      let r := trailing_stop_step o.trail o.side o._trail_stop_price
        bar.open_ bar.high bar.low
      (r.1, o.price_triggered, r.2)

/-- The write-back of the per-type price state mutated during price
determination (price_triggered for stop_limit, _trail_stop_price for
trailing_stop). -/
def writeBack (o : POrder) (bar : BarRow) (x : POrder) : POrder :=
  { x with price_triggered := (evalOrderPrice o bar).2.1,
           _trail_stop_price := (evalOrderPrice o bar).2.2 }

/-- The sibling mutation on a fill (backtesting_broker.py lines 591-593):
dependent_order_filled = true plus the cancellation status write done by
the CANCELED_ORDER handler. -/
def cancelSibling (x : POrder) : POrder :=
  { x with dependent_order_filled := true, status := OStatus.canceled }

/-- The status write done by the FILLED_ORDER handler on the filled
order. -/
def markFilled (x : POrder) : POrder :=
  { x with status := OStatus.filled }

/-- One iteration of the pending-order loop of process_pending_orders
(backtesting_broker.py lines 486-616) for the order with id i, given the
bar each order's asset produced on this tick. The order is skipped when
its sibling already filled or it is canceled; otherwise its price state
is written back and, on a non-null price, the sibling (if any) gets
dependent_order_filled = true and is canceled, and the order is filled.
Modelled from the spec: the status writes done by the CANCELED_ORDER and
FILLED_ORDER stream handlers go through _process_trade_event, which is
not under src/; per spec 4.3/4.6 they transition the status to canceled
respectively filled. Cash, fees and event payloads are modelled
separately (calculate_trade_cost, fill_cash_update). -/
def processOne (getBar : Nat → BarRow) (s : List POrder) (i : Nat) : List POrder :=
  match findOrder s i with
  | none => s
  | some o =>
    if o.dependent_order_filled = true ∨ o.status = OStatus.canceled then s
    else
      match (evalOrderPrice o (getBar i)).1 with
      | none => updAll s i (writeBack o (getBar i))
      | some _ =>
        match o.dependent_order with
        | some j =>
            updAll (updAll (updAll s i (writeBack o (getBar i))) j cancelSibling)
              i markFilled
        | none => updAll (updAll s i (writeBack o (getBar i))) i markFilled

/-- One process_pending_orders pass over the tracked primitive orders
(backtesting_broker.py lines 479-616): the pending list is snapshotted as
the tracked orders in status unprocessed/new, then each is evaluated in
tracked-insertion order against the live collection. Option expiry and
bracket/oto expansion-on-fill concern orders outside an OCO pair and are
not modelled here. -/
def process_pending_orders (getBar : Nat → BarRow) (s : List POrder) : List POrder :=
  let pending := (s.filter (fun o =>
    decide (o.status = OStatus.unprocessed) || decide (o.status = OStatus.new))).map
    (fun o => o.id)
  pending.foldl (processOne getBar) s

/-- A sequence of ticks: process_pending_orders run once per bar
function. -/
def run_passes (passes : List (Nat → BarRow)) (s : List POrder) : List POrder :=
  passes.foldl (fun st getBar => process_pending_orders getBar st) s

/-- The OCO pair invariant for sibling ids ia, ib: both resolve, they
link to each other, a filled member implies the other is flagged and
canceled, a flagged member is never filled, and no third order links to
either (dependent links form pairs only, spec 3). -/
def OCOInv (ia ib : Nat) (s : List POrder) : Prop :=
  ∃ a b, findOrder s ia = some a ∧ findOrder s ib = some b ∧
    a.dependent_order = some ib ∧
    b.dependent_order = some ia ∧
    (a.status = OStatus.filled →
      b.dependent_order_filled = true ∧ b.status = OStatus.canceled) ∧
    (b.status = OStatus.filled →
      a.dependent_order_filled = true ∧ a.status = OStatus.canceled) ∧
    (a.dependent_order_filled = true → a.status ≠ OStatus.filled) ∧
    (b.dependent_order_filled = true → b.status ≠ OStatus.filled) ∧
    (∀ o ∈ s, o.id ≠ ia → o.id ≠ ib →
      o.dependent_order ≠ some ia ∧ o.dependent_order ≠ some ib)

theorem findOrder_updAll (s : List POrder) (i j : Nat) (f : POrder → POrder)
    (hf : ∀ o, (f o).id = o.id) :
    findOrder (updAll s i f) j =
      (findOrder s j).map (fun o => if o.id = i then f o else o) := by
  induction s with
  | nil => rfl
  | cons o t ih =>
    have hid : (if o.id = i then f o else o).id = o.id := by
      split_ifs with h
      · rw [hf]
      · rfl
    by_cases hj : o.id = j
    · rw [updAll, List.map_cons, findOrder,
        List.find?_cons_of_pos _ (by simp only [decide_eq_true_eq]; rw [hid]; exact hj),
        findOrder, List.find?_cons_of_pos _ (by simp only [decide_eq_true_eq]; exact hj)]
      rfl
    · rw [updAll, List.map_cons, findOrder,
        List.find?_cons_of_neg _ (by simp only [decide_eq_true_eq]; rw [hid]; exact hj),
        findOrder, List.find?_cons_of_neg _ (by simp only [decide_eq_true_eq]; exact hj)]
      exact ih

theorem findOrder_id (s : List POrder) (i : Nat) (o : POrder)
    (h : findOrder s i = some o) : o.id = i := by
  have := List.find?_some h
  simpa using this

theorem findOrder_mem (s : List POrder) (i : Nat) (o : POrder)
    (h : findOrder s i = some o) : o ∈ s :=
  List.mem_of_find?_eq_some h

theorem mem_updAll (s : List POrder) (i : Nat) (f : POrder → POrder)
    (o' : POrder) (h : o' ∈ updAll s i f) :
    ∃ o ∈ s, o' = if o.id = i then f o else o := by
  rcases List.mem_map.mp h with ⟨o, ho, rfl⟩
  exact ⟨o, ho, rfl⟩

theorem findOrder_updAll_ne (s : List POrder) (i j : Nat) (f : POrder → POrder)
    (hid : ∀ x, (f x).id = x.id) (hij : j ≠ i) :
    findOrder (updAll s i f) j = findOrder s j := by
  rw [findOrder_updAll s i j f hid]
  rcases hj : findOrder s j with _ | o
  · rfl
  · have hjd := findOrder_id s j o hj
    simp [hjd, hij]

theorem findOrder_updAll_self (s : List POrder) (i : Nat) (f : POrder → POrder)
    (hid : ∀ x, (f x).id = x.id) :
    findOrder (updAll s i f) i = (findOrder s i).map f := by
  rw [findOrder_updAll s i i f hid]
  rcases hj : findOrder s i with _ | o
  · rfl
  · have hjd := findOrder_id s i o hj
    simp [hjd]

theorem clause7_updAll (ia ib : Nat) (s : List POrder) (i : Nat)
    (f : POrder → POrder) (hid : ∀ x, (f x).id = x.id)
    (hdep : ∀ x, (f x).dependent_order = x.dependent_order)
    (h : ∀ o ∈ s, o.id ≠ ia → o.id ≠ ib →
      o.dependent_order ≠ some ia ∧ o.dependent_order ≠ some ib) :
    ∀ o ∈ updAll s i f, o.id ≠ ia → o.id ≠ ib →
      o.dependent_order ≠ some ia ∧ o.dependent_order ≠ some ib := by
  intro o' ho' h1 h2
  obtain ⟨o, ho, rfl⟩ := mem_updAll s i f o' ho'
  by_cases hoi : o.id = i
  · rw [if_pos hoi] at h1 h2 ⊢
    rw [hid] at h1 h2
    rw [hdep]
    exact h o ho h1 h2
  · rw [if_neg hoi] at h1 h2 ⊢
    exact h o ho h1 h2

theorem OCOInv_updAll (ia ib : Nat) (s : List POrder) (i : Nat)
    (f : POrder → POrder) (hid : ∀ x, (f x).id = x.id)
    (hdep : ∀ x, (f x).dependent_order = x.dependent_order)
    (hst : ∀ x, (f x).status = x.status)
    (hfl : ∀ x, (f x).dependent_order_filled = x.dependent_order_filled)
    (h : OCOInv ia ib s) : OCOInv ia ib (updAll s i f) := by
  obtain ⟨a, b, ha, hb, hadep, hbdep, haf, hbf, hafl, hbfl, hothers⟩ := h
  have gdep : ∀ x : POrder,
      (if x.id = i then f x else x).dependent_order = x.dependent_order := by
    intro x
    split_ifs with hc
    · exact hdep x
    · rfl
  have gst : ∀ x : POrder, (if x.id = i then f x else x).status = x.status := by
    intro x
    split_ifs with hc
    · exact hst x
    · rfl
  have gfl : ∀ x : POrder,
      (if x.id = i then f x else x).dependent_order_filled =
        x.dependent_order_filled := by
    intro x
    split_ifs with hc
    · exact hfl x
    · rfl
  refine ⟨if a.id = i then f a else a, if b.id = i then f b else b,
    ?_, ?_, ?_, ?_, ?_, ?_, ?_, ?_, ?_⟩
  · rw [findOrder_updAll s i ia f hid, ha]
    rfl
  · rw [findOrder_updAll s i ib f hid, hb]
    rfl
  · rw [gdep a]
    exact hadep
  · rw [gdep b]
    exact hbdep
  · rw [gst a, gfl b, gst b]
    exact haf
  · rw [gst b, gfl a, gst a]
    exact hbf
  · rw [gfl a, gst a]
    exact hafl
  · rw [gfl b, gst b]
    exact hbfl
  · exact clause7_updAll ia ib s i f hid hdep hothers

theorem OCOInv_processOne (ia ib : Nat) (hne : ia ≠ ib) (getBar : Nat → BarRow)
    (s : List POrder) (i : Nat) (h : OCOInv ia ib s) :
    OCOInv ia ib (processOne getBar s i) := by
  rcases hi : findOrder s i with _ | o
  · simp only [processOne, hi]
    exact h
  simp only [processOne, hi]
  by_cases hskip : o.dependent_order_filled = true ∨ o.status = OStatus.canceled
  · rw [if_pos hskip]
    exact h
  rw [if_neg hskip]
  have hoid : o.id = i := findOrder_id s i o hi
  have hofl : o.dependent_order_filled = false := by
    rcases Bool.eq_false_or_eq_true o.dependent_order_filled with ht | hf
    · exact absurd (Or.inl ht) hskip
    · exact hf
  rcases hp : (evalOrderPrice o (getBar i)).1 with _ | p
  · simp only [hp]
    exact OCOInv_updAll ia ib s i (writeBack o (getBar i))
      (fun x => rfl) (fun x => rfl) (fun x => rfl) (fun x => rfl) h
  simp only [hp]
  obtain ⟨a, b, ha, hb, hadep, hbdep, haf, hbf, hafl, hbfl, hothers⟩ := h
  have haid : a.id = ia := findOrder_id s ia a ha
  have hbid : b.id = ib := findOrder_id s ib b hb
  by_cases hiia : i = ia
  · subst hiia
    have hoa : a = o := by
      rw [ha] at hi
      exact Option.some.inj hi
    subst hoa
    simp only [hadep]
    have h1a : findOrder (updAll s i (writeBack a (getBar i))) i =
        some (writeBack a (getBar i) a) := by
      rw [findOrder_updAll_self s i (writeBack a (getBar i)) (fun x => rfl), ha]
      rfl
    have h1b : findOrder (updAll s i (writeBack a (getBar i))) ib = some b := by
      rw [findOrder_updAll_ne s i ib (writeBack a (getBar i)) (fun x => rfl)
        (Ne.symm hne)]
      exact hb
    have h2a : findOrder
        (updAll (updAll s i (writeBack a (getBar i))) ib cancelSibling) i =
        some (writeBack a (getBar i) a) := by
      rw [findOrder_updAll_ne _ ib i cancelSibling (fun x => rfl) hne]
      exact h1a
    have h2b : findOrder
        (updAll (updAll s i (writeBack a (getBar i))) ib cancelSibling) ib =
        some (cancelSibling b) := by
      rw [findOrder_updAll_self _ ib cancelSibling (fun x => rfl), h1b]
      rfl
    have h3a : findOrder (updAll
        (updAll (updAll s i (writeBack a (getBar i))) ib cancelSibling)
        i markFilled) i = some (markFilled (writeBack a (getBar i) a)) := by
      rw [findOrder_updAll_self _ i markFilled (fun x => rfl), h2a]
      rfl
    have h3b : findOrder (updAll
        (updAll (updAll s i (writeBack a (getBar i))) ib cancelSibling)
        i markFilled) ib = some (cancelSibling b) := by
      rw [findOrder_updAll_ne _ i ib markFilled (fun x => rfl) (Ne.symm hne)]
      exact h2b
    refine ⟨markFilled (writeBack a (getBar i) a), cancelSibling b,
      h3a, h3b, ?_, ?_, ?_, ?_, ?_, ?_, ?_⟩
    · exact hadep
    · exact hbdep
    · intro _
      exact ⟨rfl, rfl⟩
    · intro hc
      exact absurd hc (by simp [cancelSibling])
    · intro hfl2
      have h4 : a.dependent_order_filled = true := hfl2
      rw [hofl] at h4
      exact Bool.noConfusion h4
    · intro _
      simp [cancelSibling]
    · have c1 := clause7_updAll i ib s i (writeBack a (getBar i))
        (fun x => rfl) (fun x => rfl) hothers
      have c2 := clause7_updAll i ib _ ib cancelSibling
        (fun x => rfl) (fun x => rfl) c1
      exact clause7_updAll i ib _ i markFilled
        (fun x => rfl) (fun x => rfl) c2
  by_cases hiib : i = ib
  · subst hiib
    have hob : b = o := by
      rw [hb] at hi
      exact Option.some.inj hi
    subst hob
    simp only [hbdep]
    have h1b : findOrder (updAll s i (writeBack b (getBar i))) i =
        some (writeBack b (getBar i) b) := by
      rw [findOrder_updAll_self s i (writeBack b (getBar i)) (fun x => rfl), hb]
      rfl
    have h1a : findOrder (updAll s i (writeBack b (getBar i))) ia = some a := by
      rw [findOrder_updAll_ne s i ia (writeBack b (getBar i)) (fun x => rfl) hne]
      exact ha
    have h2a : findOrder
        (updAll (updAll s i (writeBack b (getBar i))) ia cancelSibling) ia =
        some (cancelSibling a) := by
      rw [findOrder_updAll_self _ ia cancelSibling (fun x => rfl), h1a]
      rfl
    have h2b : findOrder
        (updAll (updAll s i (writeBack b (getBar i))) ia cancelSibling) i =
        some (writeBack b (getBar i) b) := by
      rw [findOrder_updAll_ne _ ia i cancelSibling (fun x => rfl) (Ne.symm hne)]
      exact h1b
    have h3b : findOrder (updAll
        (updAll (updAll s i (writeBack b (getBar i))) ia cancelSibling)
        i markFilled) i = some (markFilled (writeBack b (getBar i) b)) := by
      rw [findOrder_updAll_self _ i markFilled (fun x => rfl), h2b]
      rfl
    have h3a : findOrder (updAll
        (updAll (updAll s i (writeBack b (getBar i))) ia cancelSibling)
        i markFilled) ia = some (cancelSibling a) := by
      rw [findOrder_updAll_ne _ i ia markFilled (fun x => rfl) hne]
      exact h2a
    refine ⟨cancelSibling a, markFilled (writeBack b (getBar i) b),
      h3a, h3b, ?_, ?_, ?_, ?_, ?_, ?_, ?_⟩
    · exact hadep
    · exact hbdep
    · intro hc
      exact absurd hc (by simp [cancelSibling])
    · intro _
      exact ⟨rfl, rfl⟩
    · intro _
      simp [cancelSibling]
    · intro hfl2
      have h4 : b.dependent_order_filled = true := hfl2
      rw [hofl] at h4
      exact Bool.noConfusion h4
    · have c1 := clause7_updAll ia i s i (writeBack b (getBar i))
        (fun x => rfl) (fun x => rfl) hothers
      have c2 := clause7_updAll ia i _ ia cancelSibling
        (fun x => rfl) (fun x => rfl) c1
      exact clause7_updAll ia i _ i markFilled
        (fun x => rfl) (fun x => rfl) c2
  have hoia : o.id ≠ ia := by
    rw [hoid]
    exact hiia
  have hoib : o.id ≠ ib := by
    rw [hoid]
    exact hiib
  have hdeps := hothers o (findOrder_mem s i o hi) hoia hoib
  rcases hdo : o.dependent_order with _ | j
  · simp only [hdo]
    refine ⟨a, b, ?_, ?_, hadep, hbdep, haf, hbf, hafl, hbfl, ?_⟩
    · rw [findOrder_updAll_ne _ i ia markFilled (fun x => rfl)
        (fun hc => hiia hc.symm),
        findOrder_updAll_ne s i ia (writeBack o (getBar i)) (fun x => rfl)
        (fun hc => hiia hc.symm)]
      exact ha
    · rw [findOrder_updAll_ne _ i ib markFilled (fun x => rfl)
        (fun hc => hiib hc.symm),
        findOrder_updAll_ne s i ib (writeBack o (getBar i)) (fun x => rfl)
        (fun hc => hiib hc.symm)]
      exact hb
    · have c1 := clause7_updAll ia ib s i (writeBack o (getBar i))
        (fun x => rfl) (fun x => rfl) hothers
      exact clause7_updAll ia ib _ i markFilled
        (fun x => rfl) (fun x => rfl) c1
  · have hjia : j ≠ ia := by
      intro hc
      apply hdeps.1
      rw [hdo, hc]
    have hjib : j ≠ ib := by
      intro hc
      apply hdeps.2
      rw [hdo, hc]
    simp only [hdo]
    refine ⟨a, b, ?_, ?_, hadep, hbdep, haf, hbf, hafl, hbfl, ?_⟩
    · rw [findOrder_updAll_ne _ i ia markFilled (fun x => rfl)
        (fun hc => hiia hc.symm),
        findOrder_updAll_ne _ j ia cancelSibling (fun x => rfl)
        (fun hc => hjia hc.symm),
        findOrder_updAll_ne s i ia (writeBack o (getBar i)) (fun x => rfl)
        (fun hc => hiia hc.symm)]
      exact ha
    · rw [findOrder_updAll_ne _ i ib markFilled (fun x => rfl)
        (fun hc => hiib hc.symm),
        findOrder_updAll_ne _ j ib cancelSibling (fun x => rfl)
        (fun hc => hjib hc.symm),
        findOrder_updAll_ne s i ib (writeBack o (getBar i)) (fun x => rfl)
        (fun hc => hiib hc.symm)]
      exact hb
    · have c1 := clause7_updAll ia ib s i (writeBack o (getBar i))
        (fun x => rfl) (fun x => rfl) hothers
      have c2 := clause7_updAll ia ib _ j cancelSibling
        (fun x => rfl) (fun x => rfl) c1
      exact clause7_updAll ia ib _ i markFilled
        (fun x => rfl) (fun x => rfl) c2

theorem OCOInv_foldl (ia ib : Nat) (hne : ia ≠ ib) (getBar : Nat → BarRow)
    (pending : List Nat) (s : List POrder) (h : OCOInv ia ib s) :
    OCOInv ia ib (pending.foldl (processOne getBar) s) := by
  induction pending generalizing s with
  | nil => exact h
  | cons i t ih => exact ih _ (OCOInv_processOne ia ib hne getBar s i h)

theorem OCOInv_process_pending_orders (ia ib : Nat) (hne : ia ≠ ib)
    (getBar : Nat → BarRow) (s : List POrder) (h : OCOInv ia ib s) :
    OCOInv ia ib (process_pending_orders getBar s) := by
  rw [process_pending_orders]
  exact OCOInv_foldl ia ib hne getBar _ s h

theorem OCOInv_run_passes (ia ib : Nat) (hne : ia ≠ ib)
    (passes : List (Nat → BarRow)) (s : List POrder) (h : OCOInv ia ib s) :
    OCOInv ia ib (run_passes passes s) := by
  induction passes generalizing s with
  | nil => exact h
  | cons gb t ih =>
    rw [run_passes, List.foldl_cons]
    exact ih _ (OCOInv_process_pending_orders ia ib hne gb s h)

/-- C5: for a mutually dependent OCO pair (ids ia, ib) the pair invariant
is preserved by every sequence of process_pending_orders passes, so the
two orders never both reach filled — not even within one bar; whenever
one member is filled the other has dependent_order_filled = true and is
canceled on the same tick; and an order whose dependent_order_filled flag
is set is skipped unchanged by every pending-order evaluation. -/
theorem oco_at_most_one_fill (ia ib : Nat) (passes : List (Nat → BarRow))
    (s : List POrder) (hne : ia ≠ ib) (h : OCOInv ia ib s) :
    (¬((findOrder (run_passes passes s) ia).map POrder.status =
        some OStatus.filled ∧
      (findOrder (run_passes passes s) ib).map POrder.status =
        some OStatus.filled)) ∧
    (∀ a b, findOrder (run_passes passes s) ia = some a →
      findOrder (run_passes passes s) ib = some b →
      (a.status = OStatus.filled →
        b.dependent_order_filled = true ∧ b.status = OStatus.canceled) ∧
      (b.status = OStatus.filled →
        a.dependent_order_filled = true ∧ a.status = OStatus.canceled)) ∧
    (∀ getBar t j o, findOrder t j = some o →
      o.dependent_order_filled = true → processOne getBar t j = t) := by
  have hrun := OCOInv_run_passes ia ib hne passes s h
  obtain ⟨a0, b0, ha0, hb0, hadep, hbdep, haf, hbf, hafl, hbfl, hothers⟩ := hrun
  refine ⟨?_, ?_, ?_⟩
  · rintro ⟨hA, hB⟩
    rw [ha0] at hA
    rw [hb0] at hB
    have haF : a0.status = OStatus.filled := Option.some.inj hA
    have hbF : b0.status = OStatus.filled := Option.some.inj hB
    exact (hbfl (haf haF).1) hbF
  · intro a b ha hb
    rw [ha0] at ha
    rw [hb0] at hb
    obtain rfl := Option.some.inj ha
    obtain rfl := Option.some.inj hb
    exact ⟨haf, hbf⟩
  · intro getBar t j o hfind hflag
    simp only [processOne, hfind]
    rw [if_pos (Or.inl hflag)]

/-- The stop child of the spec's scenario 4 OCO pair: sell stop at 95,
sibling id 1. -/
def oco_stop_child : POrder :=
  { id := 0, status := OStatus.new, otype := OType.stop, side := Side.sell,
    limit_price := 0, stop_price := 95, trail := 0, price_triggered := false,
    _trail_stop_price := none, dependent_order := some 1,
    dependent_order_filled := false }

/-- The limit child of the spec's scenario 4 OCO pair: sell limit at 105,
sibling id 0. -/
def oco_limit_child : POrder :=
  { id := 1, status := OStatus.new, otype := OType.limit, side := Side.sell,
    limit_price := 105, stop_price := 0, trail := 0, price_triggered := false,
    _trail_stop_price := none, dependent_order := some 0,
    dependent_order_filled := false }

/-- The scenario 4 bar: O=100, H=104, L=94, C=100. -/
def oco_scenario_bar : BarRow :=
  { dt := 0, open_ := 100, high := 104, low := 94, close := 100, volume := 0 }

/-- Witness for C5: the spec's scenario 4 — OCO stop 95 / limit 105 on a
bar (O=100, H=104, L=94): after one pass the two orders are not both
filled. -/
theorem oco_at_most_one_fill_witness :
    ¬((findOrder (run_passes [fun _ => oco_scenario_bar]
        [oco_stop_child, oco_limit_child]) 0).map POrder.status =
          some OStatus.filled ∧
      (findOrder (run_passes [fun _ => oco_scenario_bar]
        [oco_stop_child, oco_limit_child]) 1).map POrder.status =
          some OStatus.filled) :=
  (oco_at_most_one_fill 0 1 [fun _ => oco_scenario_bar]
    [oco_stop_child, oco_limit_child] (by decide)
    ⟨oco_stop_child, oco_limit_child, rfl, rfl, rfl, rfl, by decide,
      by decide, by decide, by decide, by decide⟩).1
